import Mathlib

set_option maxRecDepth 100000

/-!
Shallow embedding of the `modbus_buffer` crate (`src/lib.rs`): a fixed-capacity
ring buffer for Modbus RTU byte streams with CRC16-validated frame discovery.

Bytes are modelled as `Nat` (the Rust code works on `u8`/`u16`; all arithmetic
that can overflow in 16 bits carries an explicit `% 65536`).  The ring storage
`[Option<u8>; CAPACITY]` becomes a `List (Option Nat)` together with the
capacity as a field.  Fallible operations return `Option`: `push` returns
`none` exactly when the Rust code reaches its explicit capacity-exceeded
`panic!`, and the snapshot `frame` returns `none` when the Rust `unwrap()` on
a ring slot would fail.  Slice indexing that the ring invariant keeps in
bounds is modelled with the total `List.set` / `List.getD`.
-/

/-- CRC data model: one round of the Modbus CRC16 inner loop
(shift right, conditionally XOR `0xA001`). -/
def crcRound (crc : Nat) : Nat :=
  if crc &&& 0x0001 ≠ 0 then (crc >>> 1) ^^^ 0xA001 else crc >>> 1

/-- Embedding of `ModbusBuffer::crc16`: fold each data byte into the
accumulator (initial `0xFFFF`), run 8 `crcRound`s per byte, and finally
byte-swap the 16-bit accumulator (`crc << 8 | crc >> 8` on `u16`). -/
def crc16 (data : List Nat) : Nat :=
  let crc := data.foldl (fun crc x => crcRound^[8] (crc ^^^ x)) 0xFFFF
  ((crc <<< 8) % 65536) ||| (crc >>> 8)

/-- Embedding of `ModbusBuffer::check_crc`: a candidate is valid only if it is
longer than 4 bytes and its trailing two bytes equal the big-endian bytes of
the CRC16 of everything before them. -/
def check_crc (frame : List Nat) : Bool :=
  if frame.length > 4 then
    let crc := crc16 (frame.take (frame.length - 2))
    frame.drop (frame.length - 2) == [(crc &&& 0xff00) >>> 8, crc &&& 0x00ff]
  else
    false

/-- Candidate slice `buffer[p .. p+w)` used by the frame search. -/
def windowAt (buffer : List Nat) (p w : Nat) : List Nat :=
  (buffer.drop p).take w

/-- The test `Self::check_crc(&buffer[p..p + w])` performed by the frame
search at position `p` and window size `w`. -/
def validAt (buffer : List Nat) (w p : Nat) : Bool :=
  check_crc (windowAt buffer p w)

/-- Inner `for i in 0..=buffer.len() - window_size` loop of
`try_decode_buffer`, iterated over the (remaining) list of indices `i`.
`some r` means the Rust function returns `r` immediately; `none` means the
loop finished and the search moves to the next window size.  The mirror
index `buffer.length - i - w` is the `j = buffer.len() - i - window_size`
of the source. -/
def innerLoop (buffer : List Nat) (w : Nat) : List Nat → Option (Option (Nat × Nat))
  | [] => none
  | i :: rest =>
    if validAt buffer w i then
      some (some (i, i + w - 2))
    else if buffer.length = w then
      some none
    else if validAt buffer w (buffer.length - i - w) then
      some (some (buffer.length - i - w, buffer.length - i - w + w - 2))
    else
      innerLoop buffer w rest

/-- One full pass of the inner loop at window size `w` (indices
`0 .. buffer.len() - w` inclusive). -/
def decodeInner (buffer : List Nat) (w : Nat) : Option (Option (Nat × Nat)) :=
  innerLoop buffer w (List.range (buffer.length - w + 1))

/-- Outer `while window_size <= buffer.len()` loop of `try_decode_buffer`,
iterated over the (remaining) list of window sizes. -/
def outerLoop (buffer : List Nat) : List Nat → Option (Nat × Nat)
  | [] => none
  | w :: rest =>
    match decodeInner buffer w with
    | some r => r
    | none => outerLoop buffer rest

/-- Embedding of `ModbusBuffer::try_decode_buffer` (the `self.min_frame_len`
read is passed explicitly): search for the shortest CRC-valid window,
window sizes from `min_frame_len + 2` up to `buffer.len()`. -/
def try_decode_buffer (min_frame_len : Nat) (buffer : List Nat) : Option (Nat × Nat) :=
  if buffer.length < min_frame_len + 2 then
    none
  else
    outerLoop buffer (List.range' (min_frame_len + 2) (buffer.length + 1 - (min_frame_len + 2)))

/-- Data model of `ModbusBuffer<CAPACITY>`: the const generic capacity is a
field, the storage a list of optional bytes. -/
structure ModbusBuffer where
  CAPACITY : Nat
  ring_buffer : List (Option Nat)
  head : Nat
  tail : Nat
  size : Nat
  min_frame_len : Nat
  max_frame_len : Nat
  overwrite : Bool
deriving DecidableEq

/-- Embedding of `ModbusBuffer::new` (the `assert!(CAPACITY > 4)` is modelled
on the reachable-state side, where construction requires `4 < cap`). -/
def ModbusBuffer.new (cap : Nat) : ModbusBuffer :=
  { CAPACITY := cap
    ring_buffer := List.replicate cap none
    head := 0
    tail := 0
    size := 0
    min_frame_len := 3
    max_frame_len := cap
    overwrite := true }

/-- Builder `ModbusBuffer::min_frame_len`. -/
def ModbusBuffer.set_min_frame_len (b : ModbusBuffer) (m : Nat) : ModbusBuffer :=
  { b with min_frame_len := m }

/-- Builder `ModbusBuffer::max_frame_len`. -/
def ModbusBuffer.set_max_frame_len (b : ModbusBuffer) (m : Nat) : ModbusBuffer :=
  { b with max_frame_len := m }

/-- Builder `ModbusBuffer::overwrite`. -/
def ModbusBuffer.set_overwrite (b : ModbusBuffer) (f : Bool) : ModbusBuffer :=
  { b with overwrite := f }

/-- Embedding of `ModbusBuffer::push`.  `none` models the Rust
capacity-exceeded `panic!` (full buffer with `overwrite == false`). -/
def ModbusBuffer.push (b : ModbusBuffer) (item : Nat) : Option ModbusBuffer :=
  if b.size = b.CAPACITY then
    if b.overwrite then
      some { b with
        ring_buffer := b.ring_buffer.set b.head (some item)
        head := (b.head + 1) % b.CAPACITY
        tail := (b.tail + 1) % b.CAPACITY }
    else
      none
  else
    some { b with
      ring_buffer := b.ring_buffer.set b.tail (some item)
      tail := (b.tail + 1) % b.CAPACITY
      size := b.size + 1 }

/-- Embedding of `ModbusBuffer::pop`: returns the popped slot value and the
updated buffer. -/
def ModbusBuffer.pop (b : ModbusBuffer) : Option Nat × ModbusBuffer :=
  if b.size = 0 then
    (none, b)
  else
    (b.ring_buffer.getD b.head none,
     { b with
        ring_buffer := b.ring_buffer.set b.head none
        head := (b.head + 1) % b.CAPACITY
        size := b.size - 1 })

/-- Embedding of `ModbusBuffer::len`. -/
def ModbusBuffer.len (b : ModbusBuffer) : Nat :=
  b.size

/-- Embedding of `ModbusBuffer::is_empty`. -/
def ModbusBuffer.is_empty (b : ModbusBuffer) : Bool :=
  b.size == 0

/-- Embedding of `ModbusBuffer::is_full`. -/
def ModbusBuffer.is_full (b : ModbusBuffer) : Bool :=
  b.size == b.CAPACITY

/-- Unwraps every slot of a list of optional bytes; `none` models the panic of
the Rust `unwrap()` on an empty slot. -/
def listUnwrap : List (Option Nat) → Option (List Nat)
  | [] => some []
  | none :: _ => none
  | some x :: rest => (listUnwrap rest).map (fun l => x :: l)

/-- Embedding of `ModbusBuffer::frame`: linearize the ring contents (oldest
first), returning the bytes written to the output buffer.  The Rust function
returns `Some(self.size)`; the written bytes are what the caller then reads
back as `frame[..len]`. -/
def ModbusBuffer.frame (b : ModbusBuffer) : Option (List Nat) :=
  if b.size > 0 then
    if b.head < b.tail then
      listUnwrap ((b.ring_buffer.drop b.head).take (b.tail - b.head))
    else
      listUnwrap (b.ring_buffer.drop b.head ++ b.ring_buffer.take b.tail)
  else
    some []

/-- Repeated `pop`, discarding the popped values (the removal loop of
`try_decode_frame`). -/
def ModbusBuffer.popN (b : ModbusBuffer) : Nat → ModbusBuffer
  | 0 => b
  | k + 1 => ModbusBuffer.popN b.pop.2 k

/-- Embedding of `ModbusBuffer::try_decode_frame`.  The result carries the
Rust return value, the updated buffer, and the caller's output buffer after
`copy_from_slice`; the outer `none` models the (unreachable under the ring
invariant) `unwrap` panic inside `frame`. -/
def ModbusBuffer.try_decode_frame (b : ModbusBuffer) (buffer : List Nat) :
    Option (Option Nat × ModbusBuffer × List Nat) :=
  if b.size = 0 ∨ b.size < b.min_frame_len then
    some (none, b, buffer)
  else
    match b.frame with
    | none => none
    | some written =>
      match try_decode_buffer b.min_frame_len
          ((written ++ List.replicate b.CAPACITY 0).take b.size) with
      | some (head, tail) =>
        some (some (tail - head), b.popN (tail + 2),
          ((((written ++ List.replicate b.CAPACITY 0).take b.size).drop head).take (tail - head))
            ++ buffer.drop (tail - head))
      | none => some (none, b, buffer)

/-- Sequential `push` of a list of bytes, oldest first; `none` as soon as one
push hits the capacity-exceeded panic. -/
def pushAll : ModbusBuffer → List Nat → Option ModbusBuffer
  | b, [] => some b
  | b, x :: xs =>
    match b.push x with
    | some b' => pushAll b' xs
    | none => none

/-- Sequential `pop` of `k` elements, returning the popped slot values in
order together with the final buffer. -/
def popList : ModbusBuffer → Nat → List (Option Nat) × ModbusBuffer
  | b, 0 => ([], b)
  | b, k + 1 =>
    let r := b.pop
    let rs := popList r.2 k
    (r.1 :: rs.1, rs.2)

/-- The ring slot holding the `i`-th oldest logical element. -/
def slotAt (b : ModbusBuffer) (i : Nat) : Option Nat :=
  b.ring_buffer.getD ((b.head + i) % b.CAPACITY) none

/-- The logical contents of the ring, oldest first, as stored slot values. -/
def logicalContents (b : ModbusBuffer) : List (Option Nat) :=
  (List.range b.size).map (slotAt b)

/-- The ring invariant: the storage has exactly `CAPACITY` slots, the
capacity passed the constructor's `assert!(CAPACITY > 4)`, at most
`CAPACITY` elements are stored, `head` is in range, `tail` is `head + size`
modulo `CAPACITY`, and every occupied slot actually holds a byte. -/
def WF (b : ModbusBuffer) : Prop :=
  b.ring_buffer.length = b.CAPACITY ∧
  4 < b.CAPACITY ∧
  b.size ≤ b.CAPACITY ∧
  b.head < b.CAPACITY ∧
  b.tail = (b.head + b.size) % b.CAPACITY ∧
  ∀ i, i < b.size → (slotAt b i).isSome = true

instance (b : ModbusBuffer) : Decidable (WF b) := by
  unfold WF
  exact inferInstanceAs (Decidable (_ ∧ _ ∧ _ ∧ _ ∧ _ ∧ _))

/-- States reachable through the public API: construction (with the
constructor's capacity assertion satisfied), builder configuration, and any
sequence of non-panicking `push`, `pop` and `try_decode_frame` calls. -/
inductive Reachable : ModbusBuffer → Prop
  | new (cap : Nat) (hcap : 4 < cap) : Reachable (ModbusBuffer.new cap)
  | set_min (b : ModbusBuffer) (m : Nat) : Reachable b → Reachable (b.set_min_frame_len m)
  | set_max (b : ModbusBuffer) (m : Nat) : Reachable b → Reachable (b.set_max_frame_len m)
  | set_ow (b : ModbusBuffer) (f : Bool) : Reachable b → Reachable (b.set_overwrite f)
  | push (b b' : ModbusBuffer) (x : Nat) : Reachable b → b.push x = some b' → Reachable b'
  | pop (b : ModbusBuffer) : Reachable b → Reachable b.pop.2
  | decode (b b' : ModbusBuffer) (out out' : List Nat) (r : Option Nat) :
      Reachable b → b.try_decode_frame out = some (r, b', out') → Reachable b'

/-- Modbus request frame used by the repository's tests: 6-byte payload
followed by its 2-byte CRC. -/
def modbusReq : List Nat := [0x12, 0x06, 0x22, 0x22, 0xAB, 0xCD, 0x9F, 0xBE]

/-- Spec-side big-endian byte pair `[high_byte, low_byte]` of `crc16 p`, as
appended to a payload in the round-trip property. -/
def crc16_bytes (p : List Nat) : List Nat :=
  [(crc16 p &&& 0xff00) >>> 8, crc16 p &&& 0x00ff]

/-- Concrete full capacity-5 buffer (head at 0, five occupied slots), used to
instantiate universally quantified theorems about full buffers. -/
def fullBuf5 : ModbusBuffer :=
  { CAPACITY := 5
    ring_buffer := [some 1, some 2, some 3, some 4, some 5]
    head := 0
    tail := 0
    size := 5
    min_frame_len := 3
    max_frame_len := 5
    overwrite := true }

/-- Concrete capacity-10 buffer state reached after pushing `modbusReq` into a
fresh default buffer (used to instantiate universally quantified theorems). -/
def modbusBuf10 : ModbusBuffer :=
  { CAPACITY := 10
    ring_buffer := modbusReq.map some ++ [none, none]
    head := 0
    tail := 8
    size := 8
    min_frame_len := 3
    max_frame_len := 10
    overwrite := true }

/-- Spec-side definition of the position order tried at a fixed window size
`w` on a buffer of length `len`: `i = 0` forward, mirror of `0`, `i = 1`
forward, mirror of `1`, …, the mirror of `i` being `len - i - w`, with the
mirror positions skipped entirely when `w = len`. -/
def candOrder (len w : Nat) : List Nat :=
  if len = w then [0]
  else (List.range (len - w + 1)).flatMap (fun i => [i, len - i - w])

theorem add_mod_inj_of_lt {n c a b : Nat} (ha : a < n) (hb : b < n)
    (h : (c + a) % n = (c + b) % n) : a = b := by
  have h1 : a % n = b % n := Nat.ModEq.add_left_cancel' c h
  rwa [Nat.mod_eq_of_lt ha, Nat.mod_eq_of_lt hb] at h1

theorem getD_set_self {α : Type} {l : List α} {i : Nat} {a d : α} (h : i < l.length) :
    (l.set i a).getD i d = a := by
  rw [List.getD_eq_getElem?_getD, List.getElem?_set]
  simp [h]

theorem getD_set_ne {α : Type} {l : List α} {i j : Nat} {a d : α} (h : i ≠ j) :
    (l.set i a).getD j d = l.getD j d := by
  rw [List.getD_eq_getElem?_getD, List.getElem?_set, if_neg h, ← List.getD_eq_getElem?_getD]

theorem listUnwrap_of_isSome (l : List (Option Nat)) (h : ∀ x ∈ l, x.isSome = true) :
    ∃ l', listUnwrap l = some l' ∧ l'.map some = l ∧ l'.length = l.length := by
  induction l with
  | nil => exact ⟨[], rfl, rfl, rfl⟩
  | cons x rest ih =>
    rcases x with _ | y
    · exact absurd (h none (by simp)) (by simp)
    · obtain ⟨l', h1, h2, h3⟩ := ih (fun z hz => h z (by simp [hz]))
      exact ⟨y :: l', by simp [listUnwrap, h1], by simp [h2], by simp [h3]⟩

theorem push_not_full (b : ModbusBuffer) (x : Nat) (hwf : WF b) (hlt : b.size < b.CAPACITY) :
    ∃ b', b.push x = some b' ∧ WF b' ∧
      logicalContents b' = logicalContents b ++ [some x] ∧
      b'.size = b.size + 1 ∧ b'.head = b.head ∧ b'.CAPACITY = b.CAPACITY ∧
      b'.min_frame_len = b.min_frame_len ∧ b'.max_frame_len = b.max_frame_len ∧
      b'.overwrite = b.overwrite := by
  obtain ⟨hlen, hcap, hsz, hhead, htail, hocc⟩ := hwf
  have hne : ¬ b.size = b.CAPACITY := by omega
  have htlt : b.tail < b.CAPACITY := by
    rw [htail]; exact Nat.mod_lt _ (by omega)
  have hkeep : ∀ i, i < b.size →
      (b.ring_buffer.set b.tail (some x)).getD ((b.head + i) % b.CAPACITY) none
        = b.ring_buffer.getD ((b.head + i) % b.CAPACITY) none := by
    intro i hi
    refine getD_set_ne ?_
    intro hcontra
    rw [htail] at hcontra
    have h2 : b.size = i := add_mod_inj_of_lt (by omega) (by omega) hcontra
    omega
  have hnew : (b.ring_buffer.set b.tail (some x)).getD ((b.head + b.size) % b.CAPACITY) none
      = some x := by
    rw [← htail]
    exact getD_set_self (by omega)
  refine ⟨{ b with
      ring_buffer := b.ring_buffer.set b.tail (some x)
      tail := (b.tail + 1) % b.CAPACITY
      size := b.size + 1 }, by simp [ModbusBuffer.push, hne], ?_, ?_, rfl, rfl, rfl, rfl,
      rfl, rfl⟩
  · refine ⟨by simpa using hlen, hcap, by simpa using Nat.succ_le_of_lt hlt, hhead, ?_, ?_⟩
    · show (b.tail + 1) % b.CAPACITY = (b.head + (b.size + 1)) % b.CAPACITY
      rw [htail, Nat.mod_add_mod, ← Nat.add_assoc]
    · intro i hi
      show ((b.ring_buffer.set b.tail (some x)).getD ((b.head + i) % b.CAPACITY) none).isSome
        = true
      rcases Nat.lt_or_ge i b.size with hilt | hige
      · rw [hkeep i hilt]; exact hocc i hilt
      · have hieq : i = b.size := by
          have h3 : i < b.size + 1 := hi
          omega
        subst hieq
        rw [hnew]
        rfl
  · show (List.range (b.size + 1)).map _ = _
    rw [List.range_succ, List.map_append]
    congr 1
    · exact List.map_congr_left (fun i hi => hkeep i (List.mem_range.mp hi))
    · exact congrArg (fun o => [o]) hnew

theorem drop_one_range_map {α : Type} (f : Nat → α) (n : Nat) :
    (List.map f (List.range n)).drop 1 = (List.range (n - 1)).map (fun i => f (1 + i)) := by
  cases n with
  | zero => simp
  | succ m =>
    rw [List.range_eq_range', List.range'_succ, List.map_cons, List.drop_succ_cons,
      List.drop_zero, List.range'_eq_map_range, List.map_map]
    simp only [Nat.add_sub_cancel]
    refine List.map_congr_left ?_
    intro i _
    show f (0 + 1 + i) = f (1 + i)
    rw [Nat.zero_add]

theorem push_full_overwrite (b : ModbusBuffer) (x : Nat) (hwf : WF b)
    (hfull : b.size = b.CAPACITY) (how : b.overwrite = true) :
    ∃ b', b.push x = some b' ∧ WF b' ∧
      logicalContents b' = (logicalContents b).drop 1 ++ [some x] ∧
      b'.size = b.CAPACITY ∧ b'.CAPACITY = b.CAPACITY ∧
      b'.min_frame_len = b.min_frame_len ∧ b'.max_frame_len = b.max_frame_len ∧
      b'.overwrite = b.overwrite := by
  obtain ⟨hlen, hcap, hsz, hhead, htail, hocc⟩ := hwf
  have hidx : ∀ i : Nat, ((b.head + 1) % b.CAPACITY + i) % b.CAPACITY
      = (b.head + (1 + i)) % b.CAPACITY := by
    intro i
    rw [Nat.mod_add_mod, Nat.add_assoc]
  have hkeep : ∀ i, i < b.CAPACITY - 1 →
      (b.ring_buffer.set b.head (some x)).getD ((b.head + (1 + i)) % b.CAPACITY) none
        = b.ring_buffer.getD ((b.head + (1 + i)) % b.CAPACITY) none := by
    intro i hi
    refine getD_set_ne ?_
    intro hcontra
    have h0 : (b.head + (1 + i)) % b.CAPACITY = (b.head + 0) % b.CAPACITY := by
      rw [Nat.add_zero, Nat.mod_eq_of_lt hhead, ← hcontra]
    have h1 : 1 + i = 0 := add_mod_inj_of_lt (by omega) (by omega) h0
    omega
  have hnew : (b.ring_buffer.set b.head (some x)).getD
      ((b.head + (1 + (b.CAPACITY - 1))) % b.CAPACITY) none = some x := by
    have h0 : (b.head + (1 + (b.CAPACITY - 1))) % b.CAPACITY = b.head := by
      have h1 : 1 + (b.CAPACITY - 1) = b.CAPACITY := by omega
      rw [h1, Nat.add_mod_right, Nat.mod_eq_of_lt hhead]
    rw [h0]
    exact getD_set_self (by omega)
  refine ⟨{ b with
      ring_buffer := b.ring_buffer.set b.head (some x)
      head := (b.head + 1) % b.CAPACITY
      tail := (b.tail + 1) % b.CAPACITY }, by simp [ModbusBuffer.push, hfull, how], ?_, ?_,
      hfull, rfl, rfl, rfl, rfl⟩
  · refine ⟨by simpa using hlen, hcap, hsz, Nat.mod_lt _ (by omega), ?_, ?_⟩
    · show (b.tail + 1) % b.CAPACITY = ((b.head + 1) % b.CAPACITY + b.size) % b.CAPACITY
      rw [htail, Nat.mod_add_mod, Nat.mod_add_mod]
      congr 1
      omega
    · intro i hi
      show ((b.ring_buffer.set b.head (some x)).getD
        (((b.head + 1) % b.CAPACITY + i) % b.CAPACITY) none).isSome = true
      rw [hidx i]
      rcases Nat.lt_or_ge i (b.CAPACITY - 1) with hilt | hige
      · rw [hkeep i hilt]
        have h2 := hocc (1 + i) (by omega)
        show (slotAt b (1 + i)).isSome = true
        exact h2
      · have hieq : i = b.CAPACITY - 1 := by
          have h3 : i < b.size := hi
          omega
        subst hieq
        rw [hnew]
        rfl
  · show (List.range b.size).map _ = _
    have hsz1 : b.size = (b.CAPACITY - 1) + 1 := by omega
    rw [logicalContents, drop_one_range_map, hsz1, List.range_succ, List.map_append]
    congr 1
    · refine List.map_congr_left ?_
      intro i hi
      have hilt := List.mem_range.mp hi
      show (b.ring_buffer.set b.head (some x)).getD
          (((b.head + 1) % b.CAPACITY + i) % b.CAPACITY) none = slotAt b (1 + i)
      rw [hidx i, hkeep i hilt]
      rfl
    · rw [List.map_singleton]
      refine congrArg (fun o => [o]) ?_
      show (b.ring_buffer.set b.head (some x)).getD
          (((b.head + 1) % b.CAPACITY + (b.CAPACITY - 1)) % b.CAPACITY) none = some x
      rw [hidx (b.CAPACITY - 1)]
      exact hnew

theorem pop_nonempty (b : ModbusBuffer) (hwf : WF b) (hpos : 0 < b.size) :
    ∃ b', b.pop = (slotAt b 0, b') ∧ WF b' ∧
      logicalContents b' = (logicalContents b).drop 1 ∧
      b'.size = b.size - 1 ∧ b'.CAPACITY = b.CAPACITY ∧ b'.tail = b.tail ∧
      b'.min_frame_len = b.min_frame_len ∧ b'.max_frame_len = b.max_frame_len ∧
      b'.overwrite = b.overwrite := by
  obtain ⟨hlen, hcap, hsz, hhead, htail, hocc⟩ := hwf
  have hne : ¬ b.size = 0 := by omega
  have hidx : ∀ i : Nat, ((b.head + 1) % b.CAPACITY + i) % b.CAPACITY
      = (b.head + (1 + i)) % b.CAPACITY := by
    intro i
    rw [Nat.mod_add_mod, Nat.add_assoc]
  have hkeep : ∀ i, i < b.size - 1 →
      (b.ring_buffer.set b.head none).getD ((b.head + (1 + i)) % b.CAPACITY) none
        = b.ring_buffer.getD ((b.head + (1 + i)) % b.CAPACITY) none := by
    intro i hi
    refine getD_set_ne ?_
    intro hcontra
    have h0 : (b.head + (1 + i)) % b.CAPACITY = (b.head + 0) % b.CAPACITY := by
      rw [Nat.add_zero, Nat.mod_eq_of_lt hhead, ← hcontra]
    have h1 : 1 + i = 0 := add_mod_inj_of_lt (by omega) (by omega) h0
    omega
  have hfst : b.ring_buffer.getD b.head none = slotAt b 0 := by
    show _ = b.ring_buffer.getD ((b.head + 0) % b.CAPACITY) none
    rw [Nat.add_zero, Nat.mod_eq_of_lt hhead]
  refine ⟨{ b with
      ring_buffer := b.ring_buffer.set b.head none
      head := (b.head + 1) % b.CAPACITY
      size := b.size - 1 }, by rw [ModbusBuffer.pop, if_neg hne, hfst], ?_, ?_, rfl, rfl,
      rfl, rfl, rfl, rfl⟩
  · refine ⟨by simpa using hlen, hcap, show b.size - 1 ≤ b.CAPACITY by omega,
      Nat.mod_lt _ (by omega), ?_, ?_⟩
    · show b.tail = ((b.head + 1) % b.CAPACITY + (b.size - 1)) % b.CAPACITY
      rw [htail, Nat.mod_add_mod]
      congr 1
      omega
    · intro i hi
      have hi' : i < b.size - 1 := hi
      show ((b.ring_buffer.set b.head none).getD
        (((b.head + 1) % b.CAPACITY + i) % b.CAPACITY) none).isSome = true
      rw [hidx i, hkeep i hi']
      have h2 := hocc (1 + i) (by omega)
      show (slotAt b (1 + i)).isSome = true
      exact h2
  · show (List.range (b.size - 1)).map _ = _
    rw [logicalContents, drop_one_range_map]
    refine List.map_congr_left ?_
    intro i hi
    have hilt := List.mem_range.mp hi
    show (b.ring_buffer.set b.head none).getD
        (((b.head + 1) % b.CAPACITY + i) % b.CAPACITY) none = slotAt b (1 + i)
    rw [hidx i, hkeep i hilt]
    rfl

theorem popN_spec (b : ModbusBuffer) (k : Nat) (hwf : WF b) (hk : k ≤ b.size) :
    WF (b.popN k) ∧ logicalContents (b.popN k) = (logicalContents b).drop k ∧
      (b.popN k).size = b.size - k ∧ (b.popN k).CAPACITY = b.CAPACITY ∧
      (b.popN k).min_frame_len = b.min_frame_len ∧
      (b.popN k).max_frame_len = b.max_frame_len ∧
      (b.popN k).overwrite = b.overwrite := by
  induction k generalizing b with
  | zero => exact ⟨hwf, rfl, rfl, rfl, rfl, rfl, rfl⟩
  | succ k ih =>
    obtain ⟨b', hpop, hwf', hlog, hsz, hcapn, htl, hmin, hmax, how⟩ :=
      pop_nonempty b hwf (by omega)
    have hb' : b.pop.2 = b' := by rw [hpop]
    rw [ModbusBuffer.popN, hb']
    obtain ⟨h1, h2, h3, h4, h5, h6, h7⟩ := ih b' hwf' (by omega)
    refine ⟨h1, ?_, by omega, by rw [h4, hcapn], by rw [h5, hmin], by rw [h6, hmax],
      by rw [h7, how]⟩
    rw [h2, hlog, List.drop_drop, Nat.add_comm]

theorem getD_drop_take {α : Type} (l : List α) (d : α) (a k : Nat) (hak : a + k ≤ l.length) :
    (l.drop a).take k = (List.range k).map (fun i => l.getD (a + i) d) := by
  refine List.ext_getElem? ?_
  intro n
  by_cases hn : n < k
  · have hlt : a + n < l.length := by omega
    rw [List.getElem?_take_of_lt hn, List.getElem?_drop, List.getElem?_map,
      List.getElem?_range hn, List.getElem?_eq_getElem hlt]
    show _ = some (l.getD (a + n) d)
    rw [List.getD_eq_getElem?_getD, List.getElem?_eq_getElem hlt]
    rfl
  · have h1 : (List.take k (List.drop a l)).length ≤ n := by
      rw [List.length_take, List.length_drop]
      omega
    have h2 : ((List.range k).map (fun i => l.getD (a + i) d)).length ≤ n := by
      rw [List.length_map, List.length_range]
      omega
    rw [List.getElem?_eq_none h1, List.getElem?_eq_none h2]

theorem frame_of_WF (b : ModbusBuffer) (hwf : WF b) :
    ∃ w, b.frame = some w ∧ w.map some = logicalContents b ∧ w.length = b.size := by
  obtain ⟨hlen, hcap, hsz, hhead, htail, hocc⟩ := hwf
  have htlt : b.tail < b.CAPACITY := by
    rw [htail]; exact Nat.mod_lt _ (by omega)
  by_cases hsz0 : b.size = 0
  · refine ⟨[], ?_, ?_, ?_⟩
    · simp [ModbusBuffer.frame, hsz0]
    · rw [logicalContents, hsz0]; rfl
    · rw [hsz0]; rfl
  · have hpos : 0 < b.size := by omega
    have hmain : ∃ sl, b.frame = listUnwrap sl ∧ sl = logicalContents b := by
      by_cases hlt : b.head < b.tail
      · have hteq : b.tail = b.head + b.size := by
          rcases Nat.lt_or_ge (b.head + b.size) b.CAPACITY with hc | hc
          · rw [htail, Nat.mod_eq_of_lt hc]
          · have hmod : (b.head + b.size) % b.CAPACITY = b.head + b.size - b.CAPACITY := by
              rw [Nat.mod_eq_sub_mod hc, Nat.mod_eq_of_lt (by omega)]
            rw [htail] at hlt
            omega
        refine ⟨(b.ring_buffer.drop b.head).take (b.tail - b.head), ?_, ?_⟩
        · rw [ModbusBuffer.frame, if_pos hpos, if_pos hlt]
        · rw [hteq, Nat.add_sub_cancel_left,
            getD_drop_take b.ring_buffer none b.head b.size (by omega)]
          rw [logicalContents]
          refine (List.map_congr_left ?_).symm
          intro i hi
          have hilt := List.mem_range.mp hi
          show b.ring_buffer.getD ((b.head + i) % b.CAPACITY) none = _
          rw [Nat.mod_eq_of_lt (by omega)]
      · have hge : b.tail ≤ b.head := by omega
        have hwrap : b.CAPACITY ≤ b.head + b.size := by
          rcases Nat.lt_or_ge (b.head + b.size) b.CAPACITY with hc | hc
          · rw [htail, Nat.mod_eq_of_lt hc] at hge
            omega
          · exact hc
        have hteq : b.tail = b.head + b.size - b.CAPACITY := by
          rw [htail, Nat.mod_eq_sub_mod hwrap, Nat.mod_eq_of_lt (by omega)]
        refine ⟨b.ring_buffer.drop b.head ++ b.ring_buffer.take b.tail, ?_, ?_⟩
        · rw [ModbusBuffer.frame, if_pos hpos, if_neg hlt]
        · have hsplit : b.size = (b.CAPACITY - b.head) + b.tail := by omega
          rw [logicalContents, hsplit, List.range_add, List.map_append, List.map_map]
          congr 1
          · have hdrop : b.ring_buffer.drop b.head
                = (b.ring_buffer.drop b.head).take (b.CAPACITY - b.head) := by
              refine (List.take_of_length_le ?_).symm
              rw [List.length_drop, hlen]
            rw [hdrop, getD_drop_take b.ring_buffer none b.head (b.CAPACITY - b.head) (by omega)]
            refine (List.map_congr_left ?_).symm
            intro i hi
            have hilt := List.mem_range.mp hi
            show b.ring_buffer.getD ((b.head + i) % b.CAPACITY) none = _
            rw [Nat.mod_eq_of_lt (by omega)]
          · have htake : b.ring_buffer.take b.tail
                = (b.ring_buffer.drop 0).take b.tail := by rw [List.drop_zero]
            rw [htake, getD_drop_take b.ring_buffer none 0 b.tail (by omega)]
            refine (List.map_congr_left ?_).symm
            intro i hi
            have hilt := List.mem_range.mp hi
            show b.ring_buffer.getD ((b.head + (b.CAPACITY - b.head + i)) % b.CAPACITY) none = _
            have hidx : b.head + (b.CAPACITY - b.head + i) = i + b.CAPACITY := by omega
            rw [hidx, Nat.add_mod_right, Nat.mod_eq_of_lt (by omega), Nat.zero_add]
    obtain ⟨sl, hfr, hsl⟩ := hmain
    have hall : ∀ x ∈ sl, x.isSome = true := by
      rw [hsl, logicalContents]
      intro x hx
      obtain ⟨i, hi, rfl⟩ := List.mem_map.mp hx
      exact hocc i (List.mem_range.mp hi)
    obtain ⟨w, hw1, hw2, hw3⟩ := listUnwrap_of_isSome sl hall
    refine ⟨w, by rw [hfr, hw1], by rw [hw2, hsl], ?_⟩
    rw [hw3, hsl, logicalContents, List.length_map, List.length_range]

theorem length_logicalContents (b : ModbusBuffer) : (logicalContents b).length = b.size := by
  rw [logicalContents, List.length_map, List.length_range]

theorem pushAll_within (s : List Nat) (b : ModbusBuffer) (hwf : WF b)
    (hs : b.size + s.length ≤ b.CAPACITY) :
    ∃ b', pushAll b s = some b' ∧ WF b' ∧
      logicalContents b' = logicalContents b ++ s.map some ∧
      b'.size = b.size + s.length ∧ b'.CAPACITY = b.CAPACITY ∧
      b'.min_frame_len = b.min_frame_len ∧ b'.max_frame_len = b.max_frame_len ∧
      b'.overwrite = b.overwrite := by
  induction s generalizing b with
  | nil => exact ⟨b, rfl, hwf, by simp, rfl, rfl, rfl, rfl, rfl⟩
  | cons x xs ih =>
    have hlc : (x :: xs).length = xs.length + 1 := rfl
    obtain ⟨b1, hp, hwf1, hlog1, hsz1, hhd1, hcap1, hmin1, hmax1, how1⟩ :=
      push_not_full b x hwf (by omega)
    obtain ⟨b2, hpa, hwf2, hlog2, hsz2, hcap2, hmin2, hmax2, how2⟩ :=
      ih b1 hwf1 (by omega)
    refine ⟨b2, ?_, hwf2, ?_, by omega, by rw [hcap2, hcap1], by rw [hmin2, hmin1],
      by rw [hmax2, hmax1], by rw [how2, how1]⟩
    · show (match b.push x with
        | some b' => pushAll b' xs
        | none => none) = some b2
      rw [hp]
      exact hpa
    · rw [hlog2, hlog1, List.append_assoc]
      rfl

theorem pushAll_overwrite (s : List Nat) (b : ModbusBuffer) (hwf : WF b)
    (how : b.overwrite = true) :
    ∃ b', pushAll b s = some b' ∧ WF b' ∧
      logicalContents b'
        = (logicalContents b ++ s.map some).drop (b.size + s.length - b.CAPACITY) ∧
      b'.size = min (b.size + s.length) b.CAPACITY ∧ b'.CAPACITY = b.CAPACITY ∧
      b'.min_frame_len = b.min_frame_len ∧ b'.max_frame_len = b.max_frame_len ∧
      b'.overwrite = b.overwrite := by
  induction s generalizing b with
  | nil =>
    obtain ⟨hlen, hcap, hsz, hhead, htail, hocc⟩ := hwf
    refine ⟨b, rfl, ⟨hlen, hcap, hsz, hhead, htail, hocc⟩, ?_, by simp; omega, rfl, rfl,
      rfl, rfl⟩
    have h0 : b.size + ([] : List Nat).length - b.CAPACITY = 0 := by
      show b.size + 0 - b.CAPACITY = 0
      omega
    rw [h0]
    simp
  | cons x xs ih =>
    have hlc : (x :: xs).length = xs.length + 1 := rfl
    have hlenlog := length_logicalContents b
    by_cases hfull : b.size = b.CAPACITY
    · obtain ⟨b1, hp, hwf1, hlog1, hsz1, hcap1, hmin1, hmax1, how1⟩ :=
        push_full_overwrite b x hwf hfull how
      obtain ⟨b2, hpa, hwf2, hlog2, hsz2, hcap2, hmin2, hmax2, how2⟩ :=
        ih b1 hwf1 (by rw [how1, how])
      have hcapb : b.CAPACITY = b1.CAPACITY := hcap1.symm
      refine ⟨b2, ?_, hwf2, ?_, ?_, by rw [hcap2, hcap1], by rw [hmin2, hmin1],
        by rw [hmax2, hmax1], by rw [how2, how1]⟩
      · show (match b.push x with
          | some b' => pushAll b' xs
          | none => none) = some b2
        rw [hp]
        exact hpa
      · rw [hlog2, hlog1, hsz1, hcap1]
        have hc4 : 4 < b.CAPACITY := hwf.2.1
        have hd1 : ((logicalContents b).drop 1 ++ [some x]) ++ xs.map some
            = (logicalContents b ++ (x :: xs).map some).drop 1 := by
          rw [List.append_assoc,
            List.drop_append_of_le_length (show 1 ≤ (logicalContents b).length by omega)]
          rfl
        rw [hd1, List.drop_drop]
        congr 1
        omega
      · rw [hsz2, hsz1, hcap1]
        have hc4 : 4 < b.CAPACITY := hwf.2.1
        omega
    · obtain ⟨b1, hp, hwf1, hlog1, hsz1, hhd1, hcap1, hmin1, hmax1, how1⟩ :=
        push_not_full b x hwf (by
          have hsz := hwf.2.2.1
          omega)
      obtain ⟨b2, hpa, hwf2, hlog2, hsz2, hcap2, hmin2, hmax2, how2⟩ :=
        ih b1 hwf1 (by rw [how1, how])
      refine ⟨b2, ?_, hwf2, ?_, ?_, by rw [hcap2, hcap1], by rw [hmin2, hmin1],
        by rw [hmax2, hmax1], by rw [how2, how1]⟩
      · show (match b.push x with
          | some b' => pushAll b' xs
          | none => none) = some b2
        rw [hp]
        exact hpa
      · rw [hlog2, hlog1, hsz1, hcap1, List.append_assoc]
        have harith : b.size + 1 + xs.length = b.size + (x :: xs).length := by
          rw [hlc]
          omega
        rw [harith]
        rfl
      · rw [hsz2, hsz1, hcap1, hlc]
        omega

theorem innerLoop_eq_find? (buffer : List Nat) (w : Nat) (hne : buffer.length ≠ w)
    (l : List Nat) :
    innerLoop buffer w l =
      match (l.flatMap (fun i => [i, buffer.length - i - w])).find? (validAt buffer w) with
      | some p => some (some (p, p + w - 2))
      | none => none := by
  induction l with
  | nil => simp [innerLoop]
  | cons i rest ih =>
    rw [List.flatMap_cons]
    by_cases h1 : validAt buffer w i
    · rw [List.find?_append, List.find?_cons_of_pos _ h1]
      simp only [innerLoop]
      rw [if_pos h1]
      simp
    · rw [List.find?_append, List.find?_cons_of_neg _ h1]
      by_cases h2 : validAt buffer w (buffer.length - i - w)
      · rw [List.find?_cons_of_pos _ h2]
        simp only [innerLoop]
        rw [if_neg h1, if_neg hne, if_pos h2]
        simp
      · rw [List.find?_cons_of_neg _ h2]
        simp only [innerLoop]
        rw [if_neg h1, if_neg hne, if_neg h2]
        simpa using ih

theorem innerLoop_none (buffer : List Nat) (w : Nat) (l : List Nat)
    (h : innerLoop buffer w l = none) :
    ∀ i ∈ l, validAt buffer w i = false := by
  induction l with
  | nil => simp
  | cons i rest ih =>
    intro p hp
    simp only [innerLoop] at h
    by_cases h1 : validAt buffer w i
    · rw [if_pos h1] at h; exact absurd h (by simp)
    · rw [if_neg h1] at h
      by_cases h2 : buffer.length = w
      · rw [if_pos h2] at h; exact absurd h (by simp)
      · rw [if_neg h2] at h
        by_cases h3 : validAt buffer w (buffer.length - i - w)
        · rw [if_pos h3] at h; exact absurd h (by simp)
        · rw [if_neg h3] at h
          rcases List.mem_cons.mp hp with rfl | hmem
          · simpa using h1
          · exact ih h p hmem

theorem innerLoop_some_none (buffer : List Nat) (w : Nat) (l : List Nat)
    (h : innerLoop buffer w l = some none) : buffer.length = w := by
  induction l with
  | nil => simp [innerLoop] at h
  | cons i rest ih =>
    simp only [innerLoop] at h
    by_cases h1 : validAt buffer w i
    · rw [if_pos h1] at h; simp at h
    · rw [if_neg h1] at h
      by_cases h2 : buffer.length = w
      · exact h2
      · rw [if_neg h2] at h
        by_cases h3 : validAt buffer w (buffer.length - i - w)
        · rw [if_pos h3] at h; simp at h
        · rw [if_neg h3] at h; exact ih h

theorem decodeInner_len_eq (buffer : List Nat) :
    decodeInner buffer buffer.length =
      if validAt buffer buffer.length 0 then some (some (0, buffer.length - 2))
      else some none := by
  have hr : List.range (buffer.length - buffer.length + 1) = [0] := by
    rw [Nat.sub_self]
    rfl
  rw [decodeInner, hr]
  by_cases h1 : validAt buffer buffer.length 0
  · simp [innerLoop, h1]
  · simp [innerLoop, h1]

theorem mem_candOrder_bound {len w p : Nat} (hw : w ≤ len) (hp : p ∈ candOrder len w) :
    p + w ≤ len := by
  unfold candOrder at hp
  by_cases h : len = w
  · rw [if_pos h] at hp
    simp at hp
    omega
  · rw [if_neg h] at hp
    rcases List.mem_flatMap.mp hp with ⟨i, hi, hmem⟩
    rw [List.mem_range] at hi
    simp only [List.mem_cons, List.not_mem_nil, or_false] at hmem
    rcases hmem with rfl | rfl <;> omega

theorem decodeInner_some_some (buffer : List Nat) (w h t : Nat) (hw : w ≤ buffer.length)
    (hres : decodeInner buffer w = some (some (h, t))) :
    t = h + w - 2 ∧ validAt buffer w h = true ∧ h + w ≤ buffer.length ∧
      (candOrder buffer.length w).find? (validAt buffer w) = some h := by
  by_cases hlen : buffer.length = w
  · subst hlen
    rw [decodeInner_len_eq] at hres
    by_cases h1 : validAt buffer buffer.length 0
    · rw [if_pos h1] at hres
      have h2 : 0 = h ∧ buffer.length - 2 = t := by
        have h3 := Option.some.inj (Option.some.inj hres)
        exact ⟨congrArg Prod.fst h3, congrArg Prod.snd h3⟩
      obtain ⟨rfl, rfl⟩ := h2
      refine ⟨by omega, h1, by omega, ?_⟩
      rw [candOrder, if_pos rfl]
      exact List.find?_cons_of_pos _ h1
    · rw [if_neg h1] at hres
      simp at hres
  · rw [decodeInner, innerLoop_eq_find? buffer w hlen] at hres
    rcases hfind : (((List.range (buffer.length - w + 1)).flatMap
        (fun i => [i, buffer.length - i - w])).find? (validAt buffer w)) with _ | p
    · rw [hfind] at hres; simp at hres
    · rw [hfind] at hres
      simp only [Option.some.injEq] at hres
      have hp : p = h ∧ p + w - 2 = t := by
        exact ⟨congrArg Prod.fst hres, congrArg Prod.snd hres⟩
      obtain ⟨rfl, rfl⟩ := hp
      have hco : (candOrder buffer.length w).find? (validAt buffer w) = some p := by
        rw [candOrder, if_neg hlen]; exact hfind
      refine ⟨rfl, List.find?_some hfind, ?_, hco⟩
      exact mem_candOrder_bound hw (List.mem_of_find?_eq_some hco)

theorem decodeInner_none_all_fail (buffer : List Nat) (w : Nat) (hw : w ≤ buffer.length)
    (hres : decodeInner buffer w = none) :
    ∀ p, p + w ≤ buffer.length → validAt buffer w p = false := by
  intro p hp
  have := innerLoop_none buffer w _ hres p ?_
  · exact this
  · rw [List.mem_range]; omega

theorem outerLoop_some (buffer : List Nat) (h t : Nat) :
    ∀ n w0, 2 ≤ w0 → w0 + n = buffer.length + 1 →
    outerLoop buffer (List.range' w0 n) = some (h, t) →
    ∃ w, w0 ≤ w ∧ w ≤ buffer.length ∧ t = h + w - 2 ∧ h + w ≤ buffer.length ∧
      validAt buffer w h = true ∧
      (∀ w' p, w0 ≤ w' → w' < w → p + w' ≤ buffer.length → validAt buffer w' p = false) ∧
      (candOrder buffer.length w).find? (validAt buffer w) = some h := by
  intro n
  induction n with
  | zero => intro w0 _ _ hres; simp [outerLoop] at hres
  | succ n ih =>
    intro w0 hw0 hsum hres
    rw [List.range'_succ] at hres
    simp only [outerLoop] at hres
    rcases hinner : decodeInner buffer w0 with _ | r
    · rw [hinner] at hres
      have hall := decodeInner_none_all_fail buffer w0 (by omega) hinner
      obtain ⟨w, hw1, hw2, hw3, hw4, hw5, hw6, hw7⟩ := ih (w0 + 1) (by omega) (by omega) hres
      refine ⟨w, by omega, hw2, hw3, hw4, hw5, ?_, hw7⟩
      intro w' p hle hlt hp
      rcases Nat.eq_or_lt_of_le hle with rfl | hlt'
      · exact hall p hp
      · exact hw6 w' p (by omega) hlt hp
    · rw [hinner] at hres
      subst hres
      have hrsome := decodeInner_some_some buffer w0 h t (by omega) hinner
      obtain ⟨h1, h2, h3, h4⟩ := hrsome
      exact ⟨w0, Nat.le_refl w0, by omega, h1, h3, h2, by omega, h4⟩

theorem outerLoop_none (buffer : List Nat) :
    ∀ n w0, w0 + n = buffer.length + 1 →
    outerLoop buffer (List.range' w0 n) = none →
    ∀ w p, w0 ≤ w → w ≤ buffer.length → p + w ≤ buffer.length →
      validAt buffer w p = false := by
  intro n
  induction n with
  | zero => intro w0 hsum _ w p hle hwlen _; omega
  | succ n ih =>
    intro w0 hsum hres w p hle hwlen hp
    rw [List.range'_succ] at hres
    simp only [outerLoop] at hres
    rcases hinner : decodeInner buffer w0 with _ | r
    · rw [hinner] at hres
      have hall := decodeInner_none_all_fail buffer w0 (by omega) hinner
      rcases Nat.eq_or_lt_of_le hle with rfl | hlt'
      · exact hall p hp
      · exact ih (w0 + 1) (by omega) hres w p (by omega) hwlen hp
    · rw [hinner] at hres
      subst hres
      have hlen : buffer.length = w0 := innerLoop_some_none buffer w0 _ hinner
      have hw : w = w0 := by omega
      subst hw
      have hp0 : p = 0 := by omega
      subst hp0
      rw [← hlen, decodeInner_len_eq] at hinner
      by_cases h1 : validAt buffer buffer.length 0
      · rw [if_pos h1] at hinner; simp at hinner
      · rw [← hlen]
        simpa using h1

theorem try_decode_buffer_some (min_frame_len : Nat) (buffer : List Nat) (h t : Nat)
    (hres : try_decode_buffer min_frame_len buffer = some (h, t)) :
    ∃ w, min_frame_len + 2 ≤ w ∧ w ≤ buffer.length ∧ t = h + w - 2 ∧
      h + w ≤ buffer.length ∧ validAt buffer w h = true ∧
      (∀ w' p, min_frame_len + 2 ≤ w' → w' < w → p + w' ≤ buffer.length →
        validAt buffer w' p = false) ∧
      (candOrder buffer.length w).find? (validAt buffer w) = some h := by
  rw [try_decode_buffer] at hres
  by_cases hlen : buffer.length < min_frame_len + 2
  · rw [if_pos hlen] at hres; simp at hres
  · rw [if_neg hlen] at hres
    exact outerLoop_some buffer h t _ (min_frame_len + 2) (by omega) (by omega) hres

theorem try_decode_buffer_short (min_frame_len : Nat) (buffer : List Nat)
    (hlen : buffer.length < min_frame_len + 2) :
    try_decode_buffer min_frame_len buffer = none := by
  rw [try_decode_buffer, if_pos hlen]

theorem try_decode_buffer_none_of_all_fail (min_frame_len : Nat) (buffer : List Nat)
    (hall : ∀ w p, min_frame_len + 2 ≤ w → w ≤ buffer.length → p + w ≤ buffer.length →
      validAt buffer w p = false) :
    try_decode_buffer min_frame_len buffer = none := by
  rcases hres : try_decode_buffer min_frame_len buffer with _ | pr
  · rfl
  · obtain ⟨h, t⟩ := pr
    obtain ⟨w, hw1, hw2, -, hw4, hw5, -, -⟩ := try_decode_buffer_some _ _ _ _ hres
    rw [hall w h hw1 hw2 hw4] at hw5
    exact absurd hw5 (by simp)

theorem pop_empty (b : ModbusBuffer) (h : b.size = 0) : b.pop = (none, b) := by
  rw [ModbusBuffer.pop, if_pos h]

theorem try_decode_frame_small (b : ModbusBuffer) (out : List Nat)
    (hg : b.size = 0 ∨ b.size < b.min_frame_len) :
    b.try_decode_frame out = some (none, b, out) := by
  rw [ModbusBuffer.try_decode_frame, if_pos hg]

theorem try_decode_frame_none_unchanged (b b' : ModbusBuffer) (out out' : List Nat)
    (r : Option Nat) (hres : b.try_decode_frame out = some (r, b', out')) (hr : r = none) :
    b' = b ∧ out' = out := by
  subst hr
  unfold ModbusBuffer.try_decode_frame at hres
  split at hres
  · have h1 := Option.some.inj hres
    exact ⟨(congrArg (fun z => z.2.1) h1).symm, (congrArg (fun z => z.2.2) h1).symm⟩
  · split at hres
    · exact absurd hres (by simp)
    · split at hres
      · exact absurd (congrArg (fun z => z.map (fun y => y.1)) hres) (by simp)
      · have h1 := Option.some.inj hres
        exact ⟨(congrArg (fun z => z.2.1) h1).symm, (congrArg (fun z => z.2.2) h1).symm⟩

theorem try_decode_frame_match (b : ModbusBuffer) (out cont : List Nat) (h t : Nat)
    (hwf : WF b) (hfr : b.frame = some cont)
    (hm : try_decode_buffer b.min_frame_len cont = some (h, t)) :
    b.try_decode_frame out = some (some (t - h), b.popN (t + 2),
      (cont.drop h).take (t - h) ++ out.drop (t - h)) ∧
    WF (b.popN (t + 2)) ∧
    logicalContents (b.popN (t + 2)) = (logicalContents b).drop (t + 2) ∧
    (b.popN (t + 2)).size = b.size - (t + 2) ∧ t + 2 ≤ b.size ∧
    (b.popN (t + 2)).CAPACITY = b.CAPACITY ∧
    (b.popN (t + 2)).min_frame_len = b.min_frame_len ∧
    (b.popN (t + 2)).max_frame_len = b.max_frame_len ∧
    (b.popN (t + 2)).overwrite = b.overwrite := by
  obtain ⟨w0, hw0, hmap, hlenw⟩ := frame_of_WF b hwf
  rw [hfr] at hw0
  have hcw : cont = w0 := Option.some.inj hw0
  subst hcw
  obtain ⟨w, hw1, hw2, hw3, hw4, hw5, hw6, hw7⟩ := try_decode_buffer_some _ _ _ _ hm
  rw [hlenw] at hw2 hw4
  have ht2 : t + 2 = h + w := by omega
  have ht2le : t + 2 ≤ b.size := by omega
  have hguard : ¬ (b.size = 0 ∨ b.size < b.min_frame_len) := by
    push_neg
    constructor <;> omega
  have hfreq : (cont ++ List.replicate b.CAPACITY 0).take b.size = cont := by
    rw [← hlenw, List.take_left]
  refine ⟨?_, ?_⟩
  · rw [ModbusBuffer.try_decode_frame, if_neg hguard, hfr]
    show (match try_decode_buffer b.min_frame_len
        ((cont ++ List.replicate b.CAPACITY 0).take b.size) with
      | some (head, tail) => some (some (tail - head), b.popN (tail + 2),
          (((cont ++ List.replicate b.CAPACITY 0).take b.size).drop head).take (tail - head)
            ++ out.drop (tail - head))
      | none => some (none, b, out)) = _
    rw [hfreq, hm]
  · obtain ⟨p1, p2, p3, p4, p5, p6, p7⟩ := popN_spec b (t + 2) hwf ht2le
    exact ⟨p1, p2, p3, ht2le, p4, p5, p6, p7⟩

theorem try_decode_frame_none_eval (b : ModbusBuffer) (out cont : List Nat)
    (hguard : ¬ (b.size = 0 ∨ b.size < b.min_frame_len))
    (hfr : b.frame = some cont) (hlenc : cont.length = b.size)
    (hm : try_decode_buffer b.min_frame_len cont = none) :
    b.try_decode_frame out = some (none, b, out) := by
  have hfreq : (cont ++ List.replicate b.CAPACITY 0).take b.size = cont := by
    rw [← hlenc, List.take_left]
  rw [ModbusBuffer.try_decode_frame, if_neg hguard, hfr]
  show (match try_decode_buffer b.min_frame_len
      ((cont ++ List.replicate b.CAPACITY 0).take b.size) with
    | some (head, tail) => some (some (tail - head), b.popN (tail + 2),
        (((cont ++ List.replicate b.CAPACITY 0).take b.size).drop head).take (tail - head)
          ++ out.drop (tail - head))
    | none => some (none, b, out)) = _
  rw [hfreq, hm]

theorem try_decode_frame_preserves_WF (b b' : ModbusBuffer) (out out' : List Nat)
    (r : Option Nat) (hwf : WF b) (hres : b.try_decode_frame out = some (r, b', out')) :
    WF b' := by
  by_cases hg : b.size = 0 ∨ b.size < b.min_frame_len
  · rw [try_decode_frame_small b out hg] at hres
    have h1 := Option.some.inj hres
    have hb : b = b' := congrArg (fun z => z.2.1) h1
    exact hb ▸ hwf
  · obtain ⟨w0, hw0, hmap, hlenw⟩ := frame_of_WF b hwf
    rcases hm : try_decode_buffer b.min_frame_len w0 with _ | pr
    · rw [try_decode_frame_none_eval b out w0 hg hw0 hlenw hm] at hres
      have h1 := Option.some.inj hres
      have hb : b = b' := congrArg (fun z => z.2.1) h1
      exact hb ▸ hwf
    · obtain ⟨hh, tt⟩ := pr
      have hmain := try_decode_frame_match b out w0 hh tt hwf hw0 hm
      rw [hmain.1] at hres
      have h1 := Option.some.inj hres
      have hb : b.popN (tt + 2) = b' := congrArg (fun z => z.2.1) h1
      exact hb ▸ hmain.2.1


/-- C1: `try_decode_buffer` returns `none` when the input is shorter than
`min_frame_len + 2`; otherwise a returned match `(h, t)` determines a window
`w = t - h + 2` with `min_frame_len + 2 ≤ w ≤ bytes.length` whose candidate
`bytes[h, h+w)` passes `check_crc`, no strictly smaller window size
`≥ min_frame_len + 2` has any position whose candidate passes `check_crc`,
and within window size `w` the returned position is the first to validate in
the order `i = 0` forward, mirror of `0`, `i = 1` forward, mirror of `1`, …
(the mirror of `i` being `len - i - w`, and mirrors skipped entirely when
`w = bytes.length`); if no window of any size validates, the result is
`none`. -/
theorem C1_try_decode_buffer_shortest_window (min_frame_len : Nat) (bytes : List Nat) :
    (bytes.length < min_frame_len + 2 → try_decode_buffer min_frame_len bytes = none) ∧
    (∀ h t, try_decode_buffer min_frame_len bytes = some (h, t) →
      min_frame_len + 2 ≤ t - h + 2 ∧ t - h + 2 ≤ bytes.length ∧
      h + (t - h + 2) ≤ bytes.length ∧
      check_crc (windowAt bytes h (t - h + 2)) = true ∧
      (∀ w', min_frame_len + 2 ≤ w' → w' < t - h + 2 → ∀ p, p + w' ≤ bytes.length →
        check_crc (windowAt bytes p w') = false) ∧
      (candOrder bytes.length (t - h + 2)).find?
        (fun p => check_crc (windowAt bytes p (t - h + 2))) = some h) ∧
    ((∀ w p, min_frame_len + 2 ≤ w → w ≤ bytes.length → p + w ≤ bytes.length →
      check_crc (windowAt bytes p w) = false) → try_decode_buffer min_frame_len bytes = none) := by
  refine ⟨try_decode_buffer_short min_frame_len bytes, ?_, ?_⟩
  · intro h t hres
    obtain ⟨w, hw1, hw2, hw3, hw4, hw5, hw6, hw7⟩ :=
      try_decode_buffer_some min_frame_len bytes h t hres
    have hw : t - h + 2 = w := by omega
    rw [hw]
    refine ⟨hw1, hw2, hw4, hw5, ?_, hw7⟩
    intro w' hle hlt p hp
    exact hw6 w' p hle hlt hp
  · intro hall
    exact try_decode_buffer_none_of_all_fail min_frame_len bytes
      (fun w p h1 h2 h3 => hall w p h1 h2 h3)

theorem C1_witness :
    3 + 2 ≤ 6 - 0 + 2 ∧ 6 - 0 + 2 ≤ modbusReq.length ∧
    0 + (6 - 0 + 2) ≤ modbusReq.length ∧
    check_crc (windowAt modbusReq 0 (6 - 0 + 2)) = true ∧
    (∀ w', 3 + 2 ≤ w' → w' < 6 - 0 + 2 → ∀ p, p + w' ≤ modbusReq.length →
      check_crc (windowAt modbusReq p w') = false) ∧
    (candOrder modbusReq.length (6 - 0 + 2)).find?
      (fun p => check_crc (windowAt modbusReq p (6 - 0 + 2))) = some 0 :=
  (C1_try_decode_buffer_shortest_window 3 modbusReq).2.1 0 6 (by decide)

example : crc16 [0x12, 0x06, 0x22, 0x22, 0xAB, 0xCD] = 0x9FBE := by decide

example : check_crc [0x12, 0x06, 0x22, 0x22, 0xAB, 0xCD, 0x9F, 0xBE] = true := by decide

example : try_decode_buffer 3 [0x12, 0x06, 0x22, 0x22, 0xAB, 0xCD, 0x9F, 0xBE] = some (0, 6) := by
  decide

theorem popList_spec (k : Nat) (b : ModbusBuffer) (hwf : WF b) (hk : k ≤ b.size) :
    (popList b k).1 = (logicalContents b).take k := by
  induction k generalizing b with
  | zero => rfl
  | succ k ih =>
    obtain ⟨b', hpop, hwf', hlog, hsz, _, _, _, _, _⟩ := pop_nonempty b hwf (by omega)
    have hcons : logicalContents b = slotAt b 0 :: (logicalContents b).drop 1 := by
      obtain ⟨m, hm⟩ : ∃ m, b.size = m + 1 := ⟨b.size - 1, by omega⟩
      rw [logicalContents, hm, List.range_succ_eq_map, List.map_cons]
      rfl
    show b.pop.1 :: (popList b.pop.2 k).1 = _
    rw [hpop]
    show slotAt b 0 :: (popList b' k).1 = _
    rw [ih b' hwf' (by omega), hlog]
    rw [hcons]
    rfl

/-- C7: `push` signals the fatal capacity-exceeded panic (modelled as `none`)
if and only if the buffer is full and `overwrite` is `false`; in every other
case it completes normally. -/
theorem C7_push_panics_iff_full_no_overwrite (b : ModbusBuffer) (x : Nat) :
    b.push x = none ↔ (b.size = b.CAPACITY ∧ b.overwrite = false) := by
  rw [ModbusBuffer.push]
  by_cases h1 : b.size = b.CAPACITY <;> by_cases h2 : b.overwrite <;> simp [h1, h2]

/-- C8: when `try_decode_frame` finds no frame — empty buffer, fewer than
`min_frame_len` bytes, or no CRC-valid window — it reports `none` with the
buffer state and output buffer completely unchanged; `pop` on an empty buffer
likewise returns `none` without mutating state. -/
theorem C8_no_frame_leaves_state_unchanged :
    (∀ (b : ModbusBuffer) (out : List Nat), b.size = 0 ∨ b.size < b.min_frame_len →
      b.try_decode_frame out = some (none, b, out)) ∧
    (∀ (b : ModbusBuffer) (out cont : List Nat),
      ¬ (b.size = 0 ∨ b.size < b.min_frame_len) → b.frame = some cont →
      cont.length = b.size → try_decode_buffer b.min_frame_len cont = none →
      b.try_decode_frame out = some (none, b, out)) ∧
    (∀ (b b' : ModbusBuffer) (out out' : List Nat) (r : Option Nat),
      b.try_decode_frame out = some (r, b', out') → r = none → b' = b ∧ out' = out) ∧
    (∀ b : ModbusBuffer, b.size = 0 → b.pop = (none, b)) :=
  ⟨try_decode_frame_small,
   fun b out cont hg hfr hlen hm => try_decode_frame_none_eval b out cont hg hfr hlen hm,
   try_decode_frame_none_unchanged,
   pop_empty⟩

theorem C8_witness :
    (ModbusBuffer.new 10).try_decode_frame (List.replicate 10 0)
      = some (none, ModbusBuffer.new 10, List.replicate 10 0) ∧
    (ModbusBuffer.new 10).pop = (none, ModbusBuffer.new 10) :=
  ⟨C8_no_frame_leaves_state_unchanged.1 (ModbusBuffer.new 10) (List.replicate 10 0)
      (Or.inl (by decide)),
   C8_no_frame_leaves_state_unchanged.2.2.2 (ModbusBuffer.new 10) (by decide)⟩

/-- C4 (amended): `check_crc` rejects every candidate of length 4 or less,
and for every payload of length at least 3 — so that the resulting candidate
is longer than 4 bytes — appending the big-endian bytes of `crc16` of the
payload yields a candidate that `check_crc` accepts. -/
theorem C4_check_crc_roundtrip :
    (∀ c : List Nat, c.length ≤ 4 → check_crc c = false) ∧
    (∀ P : List Nat, 3 ≤ P.length → check_crc (P ++ crc16_bytes P) = true) := by
  constructor
  · intro c hc
    rw [check_crc, if_neg (by omega)]
  · intro P hP
    have hlen : (P ++ crc16_bytes P).length = P.length + 2 := by
      rw [List.length_append]
      rfl
    rw [check_crc, if_pos (by omega)]
    have h1 : (P ++ crc16_bytes P).length - 2 = P.length := by omega
    simp only [h1, List.take_left, List.drop_left]
    simp [crc16_bytes]

/-- The C4 round-trip claim is false as stated for payloads shorter than 3
bytes: the empty payload yields the 2-byte candidate `[0xFF, 0xFF]`, which
`check_crc` rejects. -/
theorem C4_counterexample : check_crc (([] : List Nat) ++ crc16_bytes []) = false := by decide

theorem C4_witness :
    check_crc [0x01, 0x02, 0x03, 0x04] = false ∧
    check_crc ([0x12, 0x06, 0x22, 0x22, 0xAB, 0xCD]
      ++ crc16_bytes [0x12, 0x06, 0x22, 0x22, 0xAB, 0xCD]) = true :=
  ⟨C4_check_crc_roundtrip.1 [0x01, 0x02, 0x03, 0x04] (by decide),
   C4_check_crc_roundtrip.2 [0x12, 0x06, 0x22, 0x22, 0xAB, 0xCD] (by decide)⟩

/-- C3: pushing `0x12 0x06 0x22 0x22 0xAB 0xCD 0x9F 0xBE` into a fresh
default capacity-10 buffer and decoding returns payload length 6, writes the
6-byte payload into the front of the output buffer, and leaves the buffer
empty. -/
theorem C3_receive_request_scenario :
    ((pushAll (ModbusBuffer.new 10) modbusReq).bind
      (fun b => b.try_decode_frame (List.replicate 10 0))).map
        (fun r => (r.1, r.2.2, r.2.1.len))
      = some (some 6, [0x12, 0x06, 0x22, 0x22, 0xAB, 0xCD, 0, 0, 0, 0], 0) := by decide

theorem WF_new (N : Nat) (hN : 4 < N) : WF (ModbusBuffer.new N) := by
  refine ⟨?_, hN, ?_, ?_, ?_, ?_⟩
  · show (List.replicate N (none : Option Nat)).length = N
    simp
  · show (0 : Nat) ≤ N
    omega
  · show (0 : Nat) < N
    omega
  · show (0 : Nat) = (0 + 0) % N
    simp
  · intro i hi
    exact absurd hi (Nat.not_lt_zero i)

/-- C5: pushing any `k ≤ N` bytes into a freshly constructed empty buffer of
capacity `N > 4` gives `len() = k`, and `k` successive pops return exactly
the pushed bytes in FIFO order, each wrapped in `Some`. -/
theorem C5_fifo (N : Nat) (s : List Nat) (hN : 4 < N) (hs : s.length ≤ N) :
    ∃ b, pushAll (ModbusBuffer.new N) s = some b ∧ b.len = s.length ∧
      (popList b s.length).1 = s.map some := by
  have hwf0 : WF (ModbusBuffer.new N) := WF_new N hN
  obtain ⟨b, hpa, hwf, hlog, hsz, hcap, _, _, _⟩ :=
    pushAll_within s (ModbusBuffer.new N) hwf0 (by
      show 0 + s.length ≤ N
      omega)
  have h0 : (ModbusBuffer.new N).size = 0 := rfl
  have hsz' : b.size = s.length := by omega
  have hlog0 : logicalContents (ModbusBuffer.new N) = [] := rfl
  refine ⟨b, hpa, hsz', ?_⟩
  rw [popList_spec s.length b hwf (by omega), hlog, hlog0, List.nil_append]
  exact List.take_of_length_le (by rw [List.length_map])

theorem C5_witness :
    ∃ b, pushAll (ModbusBuffer.new 10) [1, 2, 3] = some b ∧ b.len = [1, 2, 3].length ∧
      (popList b [1, 2, 3].length).1 = [1, 2, 3].map some :=
  C5_fifo 10 [1, 2, 3] (by decide) (by decide)

/-- C6: a `push` into a full overwrite-enabled buffer keeps `len() = N` and
drops exactly the oldest byte (the contents become the old contents without
their first element, followed by the new byte); consequently pushing more
than `N` bytes into a fresh overwrite-enabled buffer leaves exactly the last
`N` bytes, in order. -/
theorem C6_overwrite_drops_oldest :
    (∀ (b : ModbusBuffer) (x : Nat), WF b → b.size = b.CAPACITY → b.overwrite = true →
      ∃ b', b.push x = some b' ∧ b'.len = b.CAPACITY ∧
        logicalContents b' = (logicalContents b).drop 1 ++ [some x]) ∧
    (∀ (N : Nat) (s : List Nat), 4 < N → N < s.length →
      ∃ b, pushAll (ModbusBuffer.new N) s = some b ∧ b.len = N ∧
        logicalContents b = (s.drop (s.length - N)).map some) := by
  constructor
  · intro b x hwf hfull how
    obtain ⟨b', hp, _, hlog, hsz, _, _, _, _⟩ := push_full_overwrite b x hwf hfull how
    exact ⟨b', hp, hsz, hlog⟩
  · intro N s hN hs
    have hwf0 : WF (ModbusBuffer.new N) := WF_new N hN
    obtain ⟨b, hpa, hwf, hlog, hsz, hcap, _, _, _⟩ :=
      pushAll_overwrite s (ModbusBuffer.new N) hwf0 rfl
    have h0 : (ModbusBuffer.new N).size = 0 := rfl
    have hcap0 : (ModbusBuffer.new N).CAPACITY = N := rfl
    have hlog0 : logicalContents (ModbusBuffer.new N) = [] := rfl
    refine ⟨b, hpa, ?_, ?_⟩
    · show b.size = N
      rw [hsz, h0, hcap0]
      omega
    · rw [hlog, hlog0, h0, hcap0, List.nil_append, List.map_drop]
      congr 1
      omega

theorem C6_witness :
    (∃ b', fullBuf5.push 0x55 = some b' ∧ b'.len = fullBuf5.CAPACITY ∧
      logicalContents b' = (logicalContents fullBuf5).drop 1 ++ [some 0x55]) ∧
    (∃ b, pushAll (ModbusBuffer.new 5) [1, 2, 3, 4, 5, 6, 7] = some b ∧ b.len = 5 ∧
      logicalContents b = ([1, 2, 3, 4, 5, 6, 7].drop ([1, 2, 3, 4, 5, 6, 7].length - 5)).map some) := by
  constructor
  · exact C6_overwrite_drops_oldest.1 fullBuf5 0x55 (by decide) (by decide) (by decide)
  · exact C6_overwrite_drops_oldest.2 5 [1, 2, 3, 4, 5, 6, 7] (by decide) (by decide)

/-- C2: whenever the frame search finds a match `(h, t)` on the linearized
contents, `try_decode_frame` removes exactly `t + 2` bytes from the front of
the ring (leading noise, matched payload and its CRC), leaves every byte
after the matched CRC in order, copies the payload `cont[h, t)` to the front
of the caller's output buffer, and returns the payload length `t - h`; in
particular two back-to-back 8-byte frames in a capacity-20 buffer are
consumed one per call, leaving 8 and then 0 bytes. -/
theorem C2_decode_removes_frame :
    (∀ (b : ModbusBuffer) (out cont : List Nat) (h t : Nat),
      WF b → b.frame = some cont →
      try_decode_buffer b.min_frame_len cont = some (h, t) →
      b.try_decode_frame out = some (some (t - h), b.popN (t + 2),
        (cont.drop h).take (t - h) ++ out.drop (t - h)) ∧
      logicalContents (b.popN (t + 2)) = (logicalContents b).drop (t + 2) ∧
      (b.popN (t + 2)).len = b.len - (t + 2) ∧ t + 2 ≤ b.len) ∧
    ((pushAll (ModbusBuffer.new 20) (modbusReq ++ modbusReq)).bind
      (fun b => (b.try_decode_frame (List.replicate 20 0)).bind
        (fun r => (r.2.1.try_decode_frame (List.replicate 20 0)).map
          (fun r2 => (r.1, r.2.1.len, r2.1, r2.2.1.len)))))
      = some (some 6, 8, some 6, 0) := by
  constructor
  · intro b out cont h t hwf hfr hm
    obtain ⟨m1, m2, m3, m4, m5, m6, m7, m8, m9⟩ :=
      try_decode_frame_match b out cont h t hwf hfr hm
    exact ⟨m1, m3, m4, m5⟩
  · decide

theorem C2_witness :
    modbusBuf10.try_decode_frame (List.replicate 10 0)
      = some (some (6 - 0), modbusBuf10.popN (6 + 2),
        (modbusReq.drop 0).take (6 - 0) ++ (List.replicate 10 0).drop (6 - 0)) ∧
    logicalContents (modbusBuf10.popN (6 + 2)) = (logicalContents modbusBuf10).drop (6 + 2) ∧
    (modbusBuf10.popN (6 + 2)).len = modbusBuf10.len - (6 + 2) ∧ 6 + 2 ≤ modbusBuf10.len :=
  C2_decode_removes_frame.1 modbusBuf10 (List.replicate 10 0) modbusReq 0 6
    (by decide) (by decide) (by decide)

theorem pop_set_max (b : ModbusBuffer) (m : Nat) :
    (b.set_max_frame_len m).pop = (b.pop.1, b.pop.2.set_max_frame_len m) := by
  by_cases h : b.size = 0 <;>
    simp [ModbusBuffer.pop, ModbusBuffer.set_max_frame_len, h]

theorem popN_set_max (b : ModbusBuffer) (m k : Nat) :
    (b.set_max_frame_len m).popN k = (b.popN k).set_max_frame_len m := by
  induction k generalizing b with
  | zero => rfl
  | succ k ih =>
    show ((b.set_max_frame_len m).pop.2).popN k = _
    rw [pop_set_max]
    show ((b.pop.2).set_max_frame_len m).popN k = _
    rw [ih]
    rfl

theorem frame_set_max (b : ModbusBuffer) (m : Nat) :
    (b.set_max_frame_len m).frame = b.frame := rfl

theorem try_decode_frame_frame_none (b : ModbusBuffer) (out : List Nat)
    (hguard : ¬ (b.size = 0 ∨ b.size < b.min_frame_len)) (hfr : b.frame = none) :
    b.try_decode_frame out = none := by
  rw [ModbusBuffer.try_decode_frame, if_neg hguard, hfr]

theorem try_decode_frame_eval (b : ModbusBuffer) (out cont : List Nat)
    (hguard : ¬ (b.size = 0 ∨ b.size < b.min_frame_len)) (hfr : b.frame = some cont) :
    b.try_decode_frame out = match try_decode_buffer b.min_frame_len
        ((cont ++ List.replicate b.CAPACITY 0).take b.size) with
      | some (head, tail) => some (some (tail - head), b.popN (tail + 2),
          ((((cont ++ List.replicate b.CAPACITY 0).take b.size).drop head).take (tail - head))
            ++ out.drop (tail - head))
      | none => some (none, b, out) := by
  rw [ModbusBuffer.try_decode_frame, if_neg hguard, hfr]

/-- C9: the result of `try_decode_frame` — the returned length, the bytes
written to the output, and the updated buffer state — does not depend on the
configured `max_frame_len`: running it on a copy that differs only in that
field yields the same result with the altered field merely carried along. -/
theorem C9_max_frame_len_never_consulted (b : ModbusBuffer) (m : Nat) (out : List Nat) :
    (b.set_max_frame_len m).try_decode_frame out
      = (b.try_decode_frame out).map (fun r => (r.1, r.2.1.set_max_frame_len m, r.2.2)) := by
  by_cases hg : b.size = 0 ∨ b.size < b.min_frame_len
  · rw [try_decode_frame_small b out hg, try_decode_frame_small (b.set_max_frame_len m) out hg]
    rfl
  · rcases hfr : b.frame with _ | cont
    · rw [try_decode_frame_frame_none b out hg hfr,
        try_decode_frame_frame_none (b.set_max_frame_len m) out hg
          (by rw [frame_set_max, hfr])]
      rfl
    · rw [try_decode_frame_eval b out cont hg hfr,
        try_decode_frame_eval (b.set_max_frame_len m) out cont hg
          (by rw [frame_set_max, hfr])]
      show (match try_decode_buffer b.min_frame_len
          ((cont ++ List.replicate b.CAPACITY 0).take b.size) with
        | some (head, tail) => some (some (tail - head), (b.set_max_frame_len m).popN (tail + 2),
            ((((cont ++ List.replicate b.CAPACITY 0).take b.size).drop head).take (tail - head))
              ++ out.drop (tail - head))
        | none => some (none, b.set_max_frame_len m, out)) = _
      rcases hm : try_decode_buffer b.min_frame_len
          ((cont ++ List.replicate b.CAPACITY 0).take b.size) with _ | pr
      · rw [hm]
        rfl
      · obtain ⟨hh, tt⟩ := pr
        rw [hm]
        show some (some (tt - hh), (b.set_max_frame_len m).popN (tt + 2),
          ((((cont ++ List.replicate b.CAPACITY 0).take b.size).drop hh).take (tt - hh))
            ++ out.drop (tt - hh)) = _
        rw [popN_set_max]
        rfl

theorem WF_set_min (b : ModbusBuffer) (m : Nat) (hwf : WF b) :
    WF (b.set_min_frame_len m) := hwf

theorem WF_set_max (b : ModbusBuffer) (m : Nat) (hwf : WF b) :
    WF (b.set_max_frame_len m) := hwf

theorem WF_set_ow (b : ModbusBuffer) (f : Bool) (hwf : WF b) :
    WF (b.set_overwrite f) := hwf

theorem reachable_WF (b : ModbusBuffer) (hr : Reachable b) : WF b := by
  induction hr with
  | new cap hcap => exact WF_new cap hcap
  | set_min b m hr ih => exact WF_set_min b m ih
  | set_max b m hr ih => exact WF_set_max b m ih
  | set_ow b f hr ih => exact WF_set_ow b f ih
  | push b b' x hr hp ih =>
    by_cases hfull : b.size = b.CAPACITY
    · by_cases how : b.overwrite = true
      · obtain ⟨b1, hp1, hwf1, _⟩ := push_full_overwrite b x ih hfull how
        rw [hp1] at hp
        exact (Option.some.inj hp) ▸ hwf1
      · rw [ModbusBuffer.push, if_pos hfull, if_neg how] at hp
        exact absurd hp (by simp)
    · obtain ⟨b1, hp1, hwf1, _⟩ := push_not_full b x ih (by
        have hsz := ih.2.2.1
        omega)
      rw [hp1] at hp
      exact (Option.some.inj hp) ▸ hwf1
  | pop b hr ih =>
    by_cases h0 : b.size = 0
    · rw [pop_empty b h0]
      exact ih
    · obtain ⟨b', hpop, hwf', _⟩ := pop_nonempty b ih (by omega)
      rw [hpop]
      exact hwf'
  | decode b b' out out' r hr hres ih =>
    exact try_decode_frame_preserves_WF b b' out out' r ih hres

/-- C10: every buffer state reachable from construction through the public
API satisfies the ring invariant — `size ≤ CAPACITY`, `head < CAPACITY`,
`tail = (head + size) % CAPACITY`, and every one of the `size` logical slots
is occupied — and consequently the snapshot `frame` never hits an empty slot
(the `unwrap` cannot fail) and returns the full `size`-element contents. -/
theorem C10_reachable_ring_invariant (b : ModbusBuffer) (hr : Reachable b) :
    (b.size ≤ b.CAPACITY ∧ b.head < b.CAPACITY ∧
      b.tail = (b.head + b.size) % b.CAPACITY ∧
      ∀ i, i < b.size → (slotAt b i).isSome = true) ∧
    ∃ w, b.frame = some w ∧ w.length = b.size := by
  have hwf := reachable_WF b hr
  obtain ⟨w, h1, h2, h3⟩ := frame_of_WF b hwf
  exact ⟨⟨hwf.2.2.1, hwf.2.2.2.1, hwf.2.2.2.2.1, hwf.2.2.2.2.2⟩, w, h1, h3⟩

theorem C10_witness :
    ((ModbusBuffer.new 10).size ≤ (ModbusBuffer.new 10).CAPACITY ∧
      (ModbusBuffer.new 10).head < (ModbusBuffer.new 10).CAPACITY ∧
      (ModbusBuffer.new 10).tail
        = ((ModbusBuffer.new 10).head + (ModbusBuffer.new 10).size)
            % (ModbusBuffer.new 10).CAPACITY ∧
      ∀ i, i < (ModbusBuffer.new 10).size → (slotAt (ModbusBuffer.new 10) i).isSome = true) ∧
    ∃ w, (ModbusBuffer.new 10).frame = some w ∧ w.length = (ModbusBuffer.new 10).size :=
  C10_reachable_ring_invariant (ModbusBuffer.new 10) (Reachable.new 10 (by omega))
